import Mathlib

/-!
Verification of the classical-cipher framework and cryptanalysis engine
(`src/crypto/main.py`).

Strings are embedded as lists of character codes (`List Int`, Python `ord`
values).  Python's `%` on integers agrees with `Int.emod` for a positive
modulus, so modular arithmetic is translated literally.  The external
collaborators that are not part of `src/` (`crypto_utils` and the
`english_words.txt` lexicon file) are modelled from the spec; each such
definition carries a doc comment starting with `Modelled from the spec:`.
-/

/-- `ascii_value(character)`: the printable ASCII value of a character
(`ord(character) - 32`). -/
def ascii_value (c : Int) : Int := c - 32

/-- `from_ascii_value(value)`: the character corresponding to the given value
(`chr(value + 32)`). -/
def from_ascii_value (v : Int) : Int := v + 32

/-- Modelled from the spec: `crypto_utils.extended_gcd` is not under `src/`.
Spec §4.2: `extended_gcd(a, m) -> (gcd, x, y)` such that `a*x + m*y == gcd`,
standard recursive Euclid (`egcd(0,b) = (b,0,1)`;
`egcd(a,b) = (g, y - (b//a)*x, x)` where `(g,x,y) = egcd(b % a, a)`).
The recursion is expressed with explicit fuel so that it is structural; the
first argument strictly decreases, so fuel `a + 1` always suffices. -/
def egcdFuel : Nat → Nat → Nat → Int × Int × Int
  | _, 0, b => (b, 0, 1)
  | 0, _ + 1, _ => (0, 0, 0)
  | fuel + 1, a + 1, b =>
    let r := egcdFuel fuel (b % (a + 1)) (a + 1)
    (r.1, r.2.2 - (b / (a + 1) : Nat) * r.2.1, r.2.1)

/-- Modelled from the spec: `crypto_utils.extended_gcd` on integers.  The spec
requires `a*x + m*y == gcd` and that negative inputs be handled correctly;
this is achieved by running Euclid on the absolute values and flipping the
sign of the corresponding Bezout coefficient. -/
def extended_gcd (a m : Int) : Int × Int × Int :=
  let r := egcdFuel (a.natAbs + 1) a.natAbs m.natAbs
  (r.1, if a < 0 then -r.2.1 else r.2.1, if m < 0 then -r.2.2 else r.2.2)

/-- `strict_modular_inverse(int_a, int_m)` from `src/crypto/main.py`: the
modular inverse such that `x * a = 1 (mod m)`, or `None` if no inverse
exists. -/
def strict_modular_inverse (int_a int_m : Int) : Option Int :=
  let r := extended_gcd int_a int_m
  if r.1 ≠ 1 then none else some (r.2.1 % int_m)

namespace Caesar

/-- `Caesar.encode`: each character is shifted by the key modulo 95. -/
def encode (key : Int) (clear_text : List Int) : List Int :=
  clear_text.map (fun c => from_ascii_value ((ascii_value c + key) % 95))

/-- `Caesar.decode`: encoding and decoding are the same, but with differing
keys. -/
def decode (key : Int) (encoded_text : List Int) : List Int :=
  encode key encoded_text

/-- `Caesar.gen_decoding_key`: `(95 - encoding_key) % 95`. -/
def gen_decoding_key (encoding_key : Int) : Int :=
  (95 - encoding_key) % 95

end Caesar

namespace Multiplicative

/-- `Multiplicative.encode`: each character is multiplied by the key
modulo 95. -/
def encode (key : Int) (clear_text : List Int) : List Int :=
  clear_text.map (fun c => from_ascii_value ((ascii_value c * key) % 95))

/-- `Multiplicative.decode`: encoding and decoding are the same, but with
differing keys. -/
def decode (key : Int) (encoded_text : List Int) : List Int :=
  encode key encoded_text

/-- `Multiplicative.gen_decoding_key`: `strict_modular_inverse(k, 95)`. -/
def gen_decoding_key (encoding_key : Int) : Option Int :=
  strict_modular_inverse encoding_key 95

end Multiplicative

namespace Affine

/-- `Affine.encode`: Multiplicative with `key[0]`, then Caesar with
`key[1]`. -/
def encode (key : Int × Int) (clear_text : List Int) : List Int :=
  Caesar.encode key.2 (Multiplicative.encode key.1 clear_text)

/-- `Affine.decode`: Caesar with `key[1]`, then Multiplicative with
`key[0]`. -/
def decode (key : Int × Int) (encoded_text : List Int) : List Int :=
  Multiplicative.decode key.1 (Caesar.decode key.2 encoded_text)

end Affine

namespace Unbreakable

/-- The body of `Unbreakable.encode`'s loop: `zip(clear_text, cycle(key))`
pairs character `i` of the text with character `i mod len(key)` of the key.
`i` is the index of the first character of the remaining text. -/
def encodeFrom (key : List Int) (i : Nat) : List Int → List Int
  | [] => []
  | c :: cs =>
    from_ascii_value ((ascii_value c + ascii_value (key.getD (i % key.length) 0)) % 95) ::
      encodeFrom key (i + 1) cs

/-- `Unbreakable.encode`: running-key addition modulo 95.  When the key is
the empty string, `itertools.cycle` yields nothing, `zip` is empty and the
result is the empty string. -/
def encode (key clear_text : List Int) : List Int :=
  if key = [] then [] else encodeFrom key 0 clear_text

/-- `Unbreakable.decode`: delegates to `encode` with the same key (the
decoding key passed in is the negated one). -/
def decode (key encoded_text : List Int) : List Int :=
  encode key encoded_text

/-- `Unbreakable.gen_decoding_key`: character-wise `(95 - v(k[i])) % 95`. -/
def gen_decoding_key (encoding_key : List Int) : List Int :=
  encoding_key.map (fun c => from_ascii_value ((95 - ascii_value c) % 95))

end Unbreakable

/-- Big-endian combination of the character codes of one block (base 256,
one byte per character). -/
def charsToBlock (cs : List Nat) : Nat :=
  cs.foldl (fun b c => b * 256 + c) 0

/-- Fuelled base-256 digit extraction: big-endian byte list of `b`, with no
leading zero bytes (extraction runs while the block is positive).  The fuel
strictly bounds the recursion; `b` itself always suffices. -/
def blockToCharsFuel : Nat → Nat → List Nat
  | _, 0 => []
  | 0, _ + 1 => []
  | fuel + 1, b + 1 => blockToCharsFuel fuel ((b + 1) / 256) ++ [(b + 1) % 256]

/-- Big-endian byte list of a block. -/
def blockToChars (b : Nat) : List Nat :=
  blockToCharsFuel b b

/-- Fuelled chunking of a list into pieces of `k` elements (the last piece
may be shorter).  For `k ≥ 1`, fuel `l.length` always suffices. -/
def chunkFuel : Nat → Nat → List Nat → List (List Nat)
  | _, _, [] => []
  | 0, _, l => [l]
  | fuel + 1, k, l => l.take k :: chunkFuel fuel k (l.drop k)

/-- Modelled from the spec: `crypto_utils.blocks_from_text` is not under
`src/`.  Spec §4.2: partitions the text into fixed-size blocks of
`block_size` characters, each combined into one integer. -/
def blocks_from_text (text : List Nat) (block_size : Nat) : List Nat :=
  (chunkFuel text.length block_size text).map charsToBlock

/-- Modelled from the spec: `crypto_utils.text_from_blocks` is not under
`src/`.  Spec §4.2: the exact inverse of `blocks_from_text` — each block is
expanded back into its characters (its base-256 bytes, extracted while the
block is positive; the bit-size argument does not affect the recovered
text). -/
def text_from_blocks (blocks : List Nat) (_n_bits : Nat) : List Nat :=
  (blocks.map blockToChars).flatten

namespace RSA

/-- `RSA.encode`: `pow(t, key[1], key[0])` for each block of
`blocks_from_text(clear_text, 1)`. -/
def encode (key : Nat × Nat) (clear_text : List Nat) : List Nat :=
  (blocks_from_text clear_text 1).map (fun t => t ^ key.2 % key.1)

/-- `RSA.decode`: `pow(c, key[1], key[0])` for each ciphertext block, then
`text_from_blocks(_, 8)`. -/
def decode (key : Nat × Nat) (encoded_text : List Nat) : List Nat :=
  text_from_blocks (encoded_text.map (fun c => c ^ key.2 % key.1)) 8

end RSA

/-- Python `str.split(' ')`: split on every single space character, keeping
empty tokens (`''.split(' ') == ['']`). -/
def splitSpace : List Int → List (List Int)
  | [] => [[]]
  | c :: rest =>
    if c = 32 then [] :: splitSpace rest
    else
      match splitSpace rest with
      | [] => [[c]]
      | w :: ws => (c :: w) :: ws

/-- Python list/string equality test used by the substring check: does
`hay` start with `needle`? -/
def startsWithL : List Int → List Int → Bool
  | [], _ => true
  | _ :: _, [] => false
  | a :: as_, b :: bs => a == b && startsWithL as_ bs

/-- Python's `needle in hay` on strings: substring containment. -/
def containsSub (needle : List Int) : List Int → Bool
  | [] => startsWithL needle []
  | c :: rest => startsWithL needle (c :: rest) || containsSub needle rest

/-- Modelled from the spec: the backing file `english_words.txt` is not
under `src/`.  Spec §6: the backing store is line-oriented, one word per
line; its raw contents are each word followed by a newline (code 10). -/
def lexiconContents (words : List (List Int)) : List Int :=
  (words.map (fun w => w ++ [10])).flatten

namespace Hacker

/-- `Hacker.check_correctness`: for every token of `text.split(' ')`, test
whether `token + '\x0a'` occurs as a substring of the raw lexicon file
contents (`self.english_words`); all tokens must pass. -/
def check_correctness (english_words : List Int) (text : List Int) : Bool :=
  (splitSpace text).all (fun w => containsSub (w ++ [10]) english_words)

/-- The Caesar branch of `Hacker.operate_chipher`: try each decoding key in
the given list in order, returning the first decode accepted by
`check_correctness`. -/
def hackCaesarKeys (english_words text : List Int) : List Nat → Option (List Int)
  | [] => none
  | k :: ks =>
    let decoded := Caesar.decode (k : Int) text
    if check_correctness english_words decoded then some decoded
    else hackCaesarKeys english_words text ks

/-- The Caesar branch: `for key in range(0, 95)`. -/
def hackCaesar (english_words text : List Int) : Option (List Int) :=
  hackCaesarKeys english_words text (List.range 95)

/-- The Multiplicative branch of `Hacker.operate_chipher`: for each `num`,
skip it if `strict_modular_inverse(num, 95)` is `None`, otherwise decode
with the inverse and test. -/
def hackMultKeys (english_words text : List Int) : List Nat → Option (List Int)
  | [] => none
  | m :: ms =>
    match strict_modular_inverse (m : Int) 95 with
    | none => hackMultKeys english_words text ms
    | some key =>
      let decoded := Multiplicative.decode key text
      if check_correctness english_words decoded then some decoded
      else hackMultKeys english_words text ms

/-- The Multiplicative branch: `for num in range(1, 95)`. -/
def hackMultiplicative (english_words text : List Int) : Option (List Int) :=
  hackMultKeys english_words text ((List.range 94).map (· + 1))

/-- The inner loop of the Affine branch: for each Caesar key `j`, decode
with the pair `(inverse, j)` and test. -/
def hackAffineInner (english_words text : List Int) (inv : Int) :
    List Nat → Option (List Int)
  | [] => none
  | j :: js =>
    let decoded := Affine.decode (inv, (j : Int)) text
    if check_correctness english_words decoded then some decoded
    else hackAffineInner english_words text inv js

/-- The outer loop of the Affine branch: for each `i`, skip it if
`strict_modular_inverse(i, 95)` is `None`, otherwise run the inner Caesar
loop with the inverse as the multiplicative half. -/
def hackAffineOuter (english_words text : List Int) : List Nat → Option (List Int)
  | [] => none
  | i :: is_ =>
    match strict_modular_inverse (i : Int) 95 with
    | none => hackAffineOuter english_words text is_
    | some inv =>
      match hackAffineInner english_words text inv (List.range 95) with
      | some d => some d
      | none => hackAffineOuter english_words text is_

/-- The Affine branch: nested loops over `range(0, 95)`. -/
def hackAffine (english_words text : List Int) : Option (List Int) :=
  hackAffineOuter english_words text (List.range 95)

/-- The Unbreakable branch of `Hacker.operate_chipher`: each line of the
lexicon (with its newline stripped) is a candidate encoding key; derive its
decoding key, decode and test. -/
def hackUnbreakableKeys (english_words text : List Int) :
    List (List Int) → Option (List Int)
  | [] => none
  | w :: ws =>
    let decoded := Unbreakable.decode (Unbreakable.gen_decoding_key w) text
    if check_correctness english_words decoded then some decoded
    else hackUnbreakableKeys english_words text ws

/-- The five cipher classes a `Hacker` can be constructed with. -/
inductive CipherKind
  | caesar
  | multiplicative
  | affine
  | unbreakable
  | rsa
deriving DecidableEq

/-- `Hacker.operate_chipher`: dispatch on the cipher class held by the
Hacker.  The `if/elif` chain has branches for Caesar, Multiplicative,
Affine and Unbreakable only; any other cipher (RSA included) falls through
to the trailing `return None`.  The Hacker's `english_words` file contents
are determined by the word list it was loaded from. -/
def operate_chipher (words : List (List Int)) (kind : CipherKind) (text : List Int) :
    Option (List Int) :=
  let english_words := lexiconContents words
  match kind with
  | .caesar => hackCaesar english_words text
  | .multiplicative => hackMultiplicative english_words text
  | .affine => hackAffine english_words text
  | .unbreakable => hackUnbreakableKeys english_words text words
  | .rsa => none

end Hacker

/-- Every character code of the list lies in the 95-character printable
ASCII alphabet (codes 32–126). -/
def inAlphabet (l : List Int) : Prop :=
  ∀ c ∈ l, 32 ≤ c ∧ c ≤ 126

instance (l : List Int) : Decidable (inAlphabet l) := by
  unfold inAlphabet; infer_instance

/-! ### Arithmetic helper lemmas -/

lemma egcdFuel_spec : ∀ (fuel a b : Nat), a < fuel →
    (egcdFuel fuel a b).1 = (Nat.gcd a b : Int) ∧
    (a : Int) * (egcdFuel fuel a b).2.1 + (b : Int) * (egcdFuel fuel a b).2.2
      = (Nat.gcd a b : Int) := by
  intro fuel
  induction fuel with
  | zero => intro a b h; omega
  | succ f ih =>
    intro a b h
    match a with
    | 0 => simp [egcdFuel]
    | a' + 1 =>
      have hmod : b % (a' + 1) < a' + 1 := Nat.mod_lt b (Nat.succ_pos a')
      have hlt : b % (a' + 1) < f := by omega
      obtain ⟨h1, h2⟩ := ih (b % (a' + 1)) (a' + 1) hlt
      have hgcd : Nat.gcd (a' + 1) b = Nat.gcd (b % (a' + 1)) (a' + 1) :=
        Nat.gcd_rec (a' + 1) b
      have hcast : ((b % (a' + 1) : Nat) : Int)
          = (b : Int) - ((b / (a' + 1) : Nat) : Int) * ((a' + 1 : Nat) : Int) := by
        have hdm : ((a' + 1 : Nat) : Int) * ((b / (a' + 1) : Nat) : Int)
            + ((b % (a' + 1) : Nat) : Int) = (b : Int) := by
          exact_mod_cast congrArg (Nat.cast : Nat → Int) (Nat.div_add_mod b (a' + 1))
        linear_combination hdm
      constructor
      · show (egcdFuel (f + 1) (a' + 1) b).1 = _
        simp only [egcdFuel]
        rw [hgcd] at *
        exact h1
      · show ((a' + 1 : Nat) : Int) * (egcdFuel (f + 1) (a' + 1) b).2.1
            + (b : Int) * (egcdFuel (f + 1) (a' + 1) b).2.2 = _
        simp only [egcdFuel]
        rw [hgcd]
        rw [hcast] at h2
        push_cast at h2 ⊢
        ring_nf at h2 ⊢
        linarith [h2]

lemma extended_gcd_spec (a m : Int) :
    (extended_gcd a m).1 = (Int.gcd a m : Int) ∧
    a * (extended_gcd a m).2.1 + m * (extended_gcd a m).2.2 = (Int.gcd a m : Int) := by
  obtain ⟨h1, h2⟩ := egcdFuel_spec (a.natAbs + 1) a.natAbs m.natAbs (by omega)
  have hg : Nat.gcd a.natAbs m.natAbs = Int.gcd a m := rfl
  rw [hg] at h1 h2
  unfold extended_gcd
  refine ⟨h1, ?_⟩
  rcases le_or_lt 0 a with ha | ha <;> rcases le_or_lt 0 m with hm | hm
  · have ca : (a.natAbs : Int) = a := by omega
    have cm : (m.natAbs : Int) = m := by omega
    simp only [if_neg (not_lt.mpr ha), if_neg (not_lt.mpr hm)]
    rw [ca, cm] at h2
    exact h2
  · have ca : (a.natAbs : Int) = a := by omega
    have cm : (m.natAbs : Int) = -m := by omega
    simp only [if_neg (not_lt.mpr ha), if_pos hm]
    rw [ca, cm] at h2
    linear_combination h2
  · have ca : (a.natAbs : Int) = -a := by omega
    have cm : (m.natAbs : Int) = m := by omega
    simp only [if_pos ha, if_neg (not_lt.mpr hm)]
    rw [ca, cm] at h2
    linear_combination h2
  · have ca : (a.natAbs : Int) = -a := by omega
    have cm : (m.natAbs : Int) = -m := by omega
    simp only [if_pos ha, if_pos hm]
    rw [ca, cm] at h2
    linear_combination h2

lemma strict_modular_inverse_eq_some (a m : Int) (hm : 1 < m) (hg : Int.gcd a m = 1) :
    ∃ x, strict_modular_inverse a m = some x ∧ 0 ≤ x ∧ x < m ∧ a * x % m = 1 := by
  obtain ⟨h1, h2⟩ := extended_gcd_spec a m
  rw [hg] at h1 h2
  refine ⟨(extended_gcd a m).2.1 % m, ?_, Int.emod_nonneg _ (by omega),
    Int.emod_lt_of_pos _ (by omega), ?_⟩
  · unfold strict_modular_inverse
    rw [if_neg (by rw [h1]; simp)]
  · have hmul : a * ((extended_gcd a m).2.1 % m) % m = a * (extended_gcd a m).2.1 % m := by
      conv_lhs => rw [Int.mul_emod]
      conv_rhs => rw [Int.mul_emod]
      rw [Int.emod_emod_of_dvd _ dvd_rfl]
    rw [hmul]
    have hax : a * (extended_gcd a m).2.1 = 1 + m * (-(extended_gcd a m).2.2) := by
      push_cast at h2
      linarith
    rw [hax]
    have : (1 + m * (-(extended_gcd a m).2.2)) % m = 1 % m := by
      rw [mul_comm]
      exact Int.add_mul_emod_self
    rw [this]
    exact Int.emod_eq_of_lt (by omega) (by omega)

lemma strict_modular_inverse_eq_none (a m : Int) (hg : Int.gcd a m ≠ 1) :
    strict_modular_inverse a m = none := by
  obtain ⟨h1, _⟩ := extended_gcd_spec a m
  unfold strict_modular_inverse
  rw [if_pos]
  rw [h1]
  intro hc
  apply hg
  exact_mod_cast hc

lemma strict_modular_inverse_mul (a m x : Int) (hm : 1 < m)
    (h : strict_modular_inverse a m = some x) :
    a * x % m = 1 ∧ 0 ≤ x ∧ x < m := by
  by_cases hg : Int.gcd a m = 1
  · obtain ⟨x', hx', hnn, hlt, hmul⟩ := strict_modular_inverse_eq_some a m hm hg
    rw [hx'] at h
    cases h
    exact ⟨hmul, hnn, hlt⟩
  · rw [strict_modular_inverse_eq_none a m hg] at h
    cases h

/-! ### Cipher round-trip and closure lemmas -/

lemma caesar_encode_nil (k : Int) : Caesar.encode k [] = [] := rfl

lemma caesar_encode_cons (k c : Int) (cs : List Int) :
    Caesar.encode k (c :: cs)
      = from_ascii_value ((ascii_value c + k) % 95) :: Caesar.encode k cs := rfl

lemma caesar_alpha (k : Int) (t : List Int) : inAlphabet (Caesar.encode k t) := by
  intro c hc
  rw [Caesar.encode, List.mem_map] at hc
  obtain ⟨a, _, rfl⟩ := hc
  unfold from_ascii_value ascii_value
  omega

lemma mult_alpha (k : Int) (t : List Int) : inAlphabet (Multiplicative.encode k t) := by
  intro c hc
  rw [Multiplicative.encode, List.mem_map] at hc
  obtain ⟨a, _, rfl⟩ := hc
  unfold from_ascii_value ascii_value
  omega

lemma caesar_roundtrip (k : Int) (t : List Int) (ht : inAlphabet t) :
    Caesar.encode (Caesar.gen_decoding_key k) (Caesar.encode k t) = t := by
  induction t with
  | nil => rfl
  | cons c cs ih =>
    have hc := ht c (List.mem_cons_self c cs)
    have hcs : inAlphabet cs := fun x hx => ht x (List.mem_cons_of_mem c hx)
    rw [caesar_encode_cons, caesar_encode_cons, ih hcs]
    congr 1
    unfold Caesar.gen_decoding_key from_ascii_value ascii_value
    omega

lemma mult_char (c k dk : Int) (hinv : k * dk % 95 = 1) (h1 : 32 ≤ c) (h2 : c ≤ 126) :
    from_ascii_value (ascii_value (from_ascii_value (ascii_value c * k % 95)) * dk % 95)
      = c := by
  unfold from_ascii_value ascii_value
  have key : (c - 32) * k % 95 * dk % 95 = c - 32 := by
    have e1 : (c - 32) * k % 95 * dk % 95 = (c - 32) * k * dk % 95 := by
      conv_lhs => rw [Int.mul_emod]
      conv_rhs => rw [Int.mul_emod]
      rw [Int.emod_emod_of_dvd _ dvd_rfl]
    have e2 : (c - 32) * k * dk % 95 = (c - 32) * (k * dk) % 95 := by
      ring_nf
    have e3 : (c - 32) * (k * dk) % 95 = (c - 32) % 95 * (k * dk % 95) % 95 :=
      Int.mul_emod _ _ _
    rw [e1, e2, e3, hinv, mul_one, Int.emod_emod_of_dvd _ dvd_rfl,
      Int.emod_eq_of_lt (by omega) (by omega)]
  have e0 : (c - 32) * k % 95 + 32 - 32 = (c - 32) * k % 95 := by ring
  rw [e0, key]
  omega

lemma mult_roundtrip (k dk : Int) (t : List Int) (hinv : k * dk % 95 = 1)
    (ht : inAlphabet t) :
    Multiplicative.encode dk (Multiplicative.encode k t) = t := by
  induction t with
  | nil => rfl
  | cons c cs ih =>
    have hc := ht c (List.mem_cons_self c cs)
    have hcs : inAlphabet cs := fun x hx => ht x (List.mem_cons_of_mem c hx)
    show from_ascii_value (ascii_value (from_ascii_value (ascii_value c * k % 95)) * dk % 95)
        :: Multiplicative.encode dk (Multiplicative.encode k cs) = c :: cs
    rw [ih hcs, mult_char c k dk hinv hc.1 hc.2]

lemma unbreakable_gen_key_length (key : List Int) :
    (Unbreakable.gen_decoding_key key).length = key.length :=
  List.length_map _ _

lemma unbreakable_from_roundtrip (key : List Int) (hk : key ≠ []) :
    ∀ (cs : List Int) (i : Nat), inAlphabet cs →
      Unbreakable.encodeFrom (Unbreakable.gen_decoding_key key) i
        (Unbreakable.encodeFrom key i cs) = cs := by
  intro cs
  induction cs with
  | nil => intro i _; rfl
  | cons c cs' ih =>
    intro i hcs
    have hc := hcs c (List.mem_cons_self c cs')
    have hcs' : inAlphabet cs' := fun x hx => hcs x (List.mem_cons_of_mem c hx)
    have hlen : 0 < key.length := List.length_pos.mpr hk
    have hj : i % key.length < key.length := Nat.mod_lt i hlen
    have hj' : i % (Unbreakable.gen_decoding_key key).length
        < (Unbreakable.gen_decoding_key key).length := by
      rw [unbreakable_gen_key_length]; exact hj
    show from_ascii_value ((ascii_value (from_ascii_value ((ascii_value c +
          ascii_value (key.getD (i % key.length) 0)) % 95)) +
          ascii_value ((Unbreakable.gen_decoding_key key).getD
            (i % (Unbreakable.gen_decoding_key key).length) 0)) % 95) ::
        Unbreakable.encodeFrom (Unbreakable.gen_decoding_key key) (i + 1)
          (Unbreakable.encodeFrom key (i + 1) cs') = c :: cs'
    rw [ih (i + 1) hcs']
    congr 1
    have hj2 : i % key.length < (Unbreakable.gen_decoding_key key).length := by
      rw [unbreakable_gen_key_length]; exact hj
    have hgd : (Unbreakable.gen_decoding_key key).getD (i % key.length) 0
        = from_ascii_value ((95 - ascii_value (key.getD (i % key.length) 0)) % 95) := by
      rw [List.getD_eq_getElem _ _ hj2]
      simp only [Unbreakable.gen_decoding_key, List.getElem_map]
      rw [← List.getD_eq_getElem key 0 hj]
    rw [unbreakable_gen_key_length, hgd]
    unfold from_ascii_value ascii_value
    omega

lemma unbreakable_roundtrip (key t : List Int) (hk : key ≠ []) (ht : inAlphabet t) :
    Unbreakable.encode (Unbreakable.gen_decoding_key key) (Unbreakable.encode key t) = t := by
  have hk' : Unbreakable.gen_decoding_key key ≠ [] := by
    intro h
    apply hk
    have := congrArg List.length h
    rw [unbreakable_gen_key_length] at this
    exact List.length_eq_zero.mp this
  show Unbreakable.encode (Unbreakable.gen_decoding_key key) (Unbreakable.encode key t) = t
  rw [Unbreakable.encode, if_neg hk']
  rw [Unbreakable.encode, if_neg hk]
  exact unbreakable_from_roundtrip key hk t 0 ht

lemma unbreakable_from_length (key : List Int) :
    ∀ (cs : List Int) (i : Nat), (Unbreakable.encodeFrom key i cs).length = cs.length := by
  intro cs
  induction cs with
  | nil => intro i; rfl
  | cons c cs' ih => intro i; simp [Unbreakable.encodeFrom, ih]

lemma unbreakable_from_alpha (key : List Int) :
    ∀ (cs : List Int) (i : Nat), inAlphabet (Unbreakable.encodeFrom key i cs) := by
  intro cs
  induction cs with
  | nil => intro i c hc; cases hc
  | cons c cs' ih =>
    intro i x hx
    cases hx with
    | head => unfold from_ascii_value ascii_value; omega
    | tail _ h => exact ih (i + 1) x h

/-! ### Claim theorems: round trips, inverses, key handling -/

/-- C1: for each character cipher variant (Caesar, Multiplicative, Affine,
Unbreakable), for every key pair produced by that variant's `gen_key_pair`
(Caesar: `k` in [1,94] with decoding key `gen_decoding_key k`;
Multiplicative: `k` in [2,94] whose `gen_decoding_key` is not `None`;
Affine: the positional combination of those two; Unbreakable: any non-empty
key string with its character-wise negation) and every string over the
95-character printable-ASCII alphabet (including the empty string),
`decode(decoding_key, encode(encoding_key, text)) == text`. -/
theorem character_cipher_roundtrip :
    (∀ (k : Int) (t : List Int), 1 ≤ k → k ≤ 94 → inAlphabet t →
      Caesar.decode (Caesar.gen_decoding_key k) (Caesar.encode k t) = t) ∧
    (∀ (k dk : Int) (t : List Int), 2 ≤ k → k ≤ 94 →
      Multiplicative.gen_decoding_key k = some dk → inAlphabet t →
      Multiplicative.decode dk (Multiplicative.encode k t) = t) ∧
    (∀ (km kc dm : Int) (t : List Int), 2 ≤ km → km ≤ 94 → 1 ≤ kc → kc ≤ 94 →
      Multiplicative.gen_decoding_key km = some dm → inAlphabet t →
      Affine.decode (dm, Caesar.gen_decoding_key kc) (Affine.encode (km, kc) t) = t) ∧
    (∀ (ek t : List Int), ek ≠ [] → inAlphabet t →
      Unbreakable.decode (Unbreakable.gen_decoding_key ek) (Unbreakable.encode ek t) = t) := by
  refine ⟨?_, ?_, ?_, ?_⟩
  · intro k t _ _ ht
    exact caesar_roundtrip k t ht
  · intro k dk t _ _ hdk ht
    obtain ⟨hmul, _, _⟩ := strict_modular_inverse_mul k 95 dk (by omega) hdk
    exact mult_roundtrip k dk t hmul ht
  · intro km kc dm t _ _ _ _ hdm ht
    obtain ⟨hmul, _, _⟩ := strict_modular_inverse_mul km 95 dm (by omega) hdm
    show Multiplicative.encode dm
        (Caesar.encode (Caesar.gen_decoding_key kc)
          (Caesar.encode kc (Multiplicative.encode km t))) = t
    rw [caesar_roundtrip kc _ (mult_alpha km t)]
    exact mult_roundtrip km dm t hmul ht
  · intro ek t hek ht
    exact unbreakable_roundtrip ek t hek ht

/-- C1 witness: concrete key pairs and texts for all four variants. -/
theorem character_cipher_roundtrip_witness :
    Caesar.decode (Caesar.gen_decoding_key 1) (Caesar.encode 1 [32]) = [32] ∧
    Multiplicative.decode 48 (Multiplicative.encode 2 [33]) = [33] ∧
    Affine.decode (48, Caesar.gen_decoding_key 1) (Affine.encode (2, 1) [34]) = [34] ∧
    Unbreakable.decode (Unbreakable.gen_decoding_key [97, 10])
      (Unbreakable.encode [97, 10] [32, 126, 64]) = [32, 126, 64] :=
  ⟨character_cipher_roundtrip.1 1 [32] (by decide) (by decide) (by decide),
   character_cipher_roundtrip.2.1 2 48 [33] (by decide) (by decide) (by decide) (by decide),
   character_cipher_roundtrip.2.2.1 2 1 48 [34] (by decide) (by decide) (by decide)
     (by decide) (by decide) (by decide),
   character_cipher_roundtrip.2.2.2 [97, 10] [32, 126, 64] (by decide) (by decide)⟩

/-- C7: for all integers `a` and `m` with `m > 1`: if `gcd(a, m) = 1` then
`strict_modular_inverse(a, m)` returns an `x` in `[0, m)` with
`(a * x) mod m == 1`; if `gcd(a, m) != 1` it returns `None`.  (The
function is total, so no exception can be raised.) -/
theorem strict_modular_inverse_correct (a m : Int) (hm : 1 < m) :
    (Int.gcd a m = 1 →
      ∃ x, strict_modular_inverse a m = some x ∧ 0 ≤ x ∧ x < m ∧ a * x % m = 1) ∧
    (Int.gcd a m ≠ 1 → strict_modular_inverse a m = none) :=
  ⟨fun hg => strict_modular_inverse_eq_some a m hm hg,
   fun hg => strict_modular_inverse_eq_none a m hg⟩

/-- C7 witness: `a = 3` (coprime with 95) and `a = 5` (not coprime). -/
theorem strict_modular_inverse_correct_witness :
    (∃ x, strict_modular_inverse 3 95 = some x ∧ 0 ≤ x ∧ x < 95 ∧ 3 * x % 95 = 1) ∧
    strict_modular_inverse 5 95 = none :=
  ⟨(strict_modular_inverse_correct 3 95 (by decide)).1 (by decide),
   (strict_modular_inverse_correct 5 95 (by decide)).2 (by decide)⟩

/-- C9: `Unbreakable.encode` (and `Unbreakable.decode`, which delegates to
it) called with the empty string as key returns the empty string for every
plaintext: `zip(clear_text, cycle(''))` is empty, so the whole plaintext is
silently discarded without an error and without looping forever (the
function is total). -/
theorem unbreakable_empty_key (t : List Int) :
    Unbreakable.encode [] t = [] ∧ Unbreakable.decode [] t = [] := by
  constructor <;> simp [Unbreakable.encode, Unbreakable.decode]

/-- C10: for Caesar and Multiplicative with any integer key, for Affine with
any integer pair, and for Unbreakable with any non-empty key, both `encode`
and `decode` return a string of exactly the same length as the input text,
every character of which lies in the 95-character printable-ASCII alphabet
(codes 32–126). -/
theorem cipher_length_and_alphabet (k : Int) (kp : Int × Int) (uk t : List Int)
    (huk : uk ≠ []) :
    ((Caesar.encode k t).length = t.length ∧ inAlphabet (Caesar.encode k t)) ∧
    ((Caesar.decode k t).length = t.length ∧ inAlphabet (Caesar.decode k t)) ∧
    ((Multiplicative.encode k t).length = t.length ∧
      inAlphabet (Multiplicative.encode k t)) ∧
    ((Multiplicative.decode k t).length = t.length ∧
      inAlphabet (Multiplicative.decode k t)) ∧
    ((Affine.encode kp t).length = t.length ∧ inAlphabet (Affine.encode kp t)) ∧
    ((Affine.decode kp t).length = t.length ∧ inAlphabet (Affine.decode kp t)) ∧
    ((Unbreakable.encode uk t).length = t.length ∧
      inAlphabet (Unbreakable.encode uk t)) ∧
    ((Unbreakable.decode uk t).length = t.length ∧
      inAlphabet (Unbreakable.decode uk t)) := by
  have hca : ∀ (k' : Int) (s : List Int), (Caesar.encode k' s).length = s.length :=
    fun k' s => List.length_map s _
  have hmu : ∀ (k' : Int) (s : List Int),
      (Multiplicative.encode k' s).length = s.length :=
    fun k' s => List.length_map s _
  have hub : (Unbreakable.encode uk t).length = t.length ∧
      inAlphabet (Unbreakable.encode uk t) := by
    rw [Unbreakable.encode, if_neg huk]
    exact ⟨unbreakable_from_length uk t 0, unbreakable_from_alpha uk t 0⟩
  refine ⟨⟨hca k t, caesar_alpha k t⟩, ⟨hca k t, caesar_alpha k t⟩,
    ⟨hmu k t, mult_alpha k t⟩, ⟨hmu k t, mult_alpha k t⟩,
    ⟨?_, caesar_alpha _ _⟩, ⟨?_, mult_alpha _ _⟩, hub, hub⟩
  · rw [Affine.encode, hca, hmu]
  · rw [Affine.decode, Multiplicative.decode, hmu, Caesar.decode, hca]

/-- C10 witness: concrete keys (including a negative one) and a concrete
text. -/
theorem cipher_length_and_alphabet_witness :
    (Caesar.encode (-7) [32, 126]).length = 2 ∧
    inAlphabet (Affine.decode (-3, 200) [32, 126]) ∧
    inAlphabet (Unbreakable.encode [0] [32, 126]) := by
  have h := cipher_length_and_alphabet (-7) (-3, 200) [0] [32, 126] (by decide)
  exact ⟨h.1.1, h.2.2.2.2.2.1.2, h.2.2.2.2.2.2.1.2⟩

/-- C6 counterexample: `Multiplicative.encode` with the structurally invalid
(non-invertible, `gcd(5, 95) = 5`) key 5 does not fail: it silently returns
an ordinary alphabet ciphertext, and it even maps two distinct plaintexts to
the same ciphertext. -/
theorem multiplicative_invalid_key_no_error :
    Multiplicative.encode 5 [33] = [37] ∧ Multiplicative.encode 5 [52] = [37] ∧
    ([33] : List Int) ≠ [52] := by
  refine ⟨by decide, by decide, by decide⟩

/-- C6 amended: `encode`/`decode` perform no key validation at all: for every
integer key — including non-invertible multiplicative keys — they succeed
and return an alphabet string of the input's length; in particular the
non-invertible key 5 is silently accepted and collides two distinct
plaintexts instead of failing fast. -/
theorem encode_no_key_validation (k : Int) (t : List Int) :
    (Multiplicative.encode k t).length = t.length ∧
    inAlphabet (Multiplicative.encode k t) ∧
    (Caesar.encode k t).length = t.length ∧
    inAlphabet (Caesar.encode k t) ∧
    Multiplicative.encode 5 [33] = Multiplicative.encode 5 [52] :=
  ⟨List.length_map t _, mult_alpha k t, List.length_map t _, caesar_alpha k t, by decide⟩

/-! ### Substring and token lemmas -/

lemma startsWithL_iff (n : List Int) : ∀ h : List Int, startsWithL n h = true ↔ n <+: h := by
  induction n with
  | nil => intro h; simp [startsWithL, List.nil_prefix]
  | cons a as_ ihn =>
    intro h
    cases h with
    | nil => simp [startsWithL]
    | cons b bs => simp [startsWithL, List.cons_prefix_cons, ihn, and_comm]

lemma containsSub_iff (n : List Int) : ∀ h : List Int, containsSub n h = true ↔ n <:+: h := by
  intro h
  induction h with
  | nil =>
    show containsSub n [] = true ↔ _
    rw [containsSub, startsWithL_iff]
    simp
  | cons c rest ih =>
    show containsSub n (c :: rest) = true ↔ _
    rw [containsSub, Bool.or_eq_true, startsWithL_iff, ih]
    exact (List.infix_cons_iff).symm

lemma splitSpace_ne_nil (t : List Int) : splitSpace t ≠ [] := by
  cases t with
  | nil => simp [splitSpace]
  | cons c rest =>
    by_cases hc : c = 32
    · simp [splitSpace, hc]
    · rw [splitSpace, if_neg hc]
      cases splitSpace rest <;> simp

lemma splitSpace_mem_mem : ∀ (t : List Int) (w : List Int), w ∈ splitSpace t →
    ∀ c ∈ w, c ∈ t := by
  intro t
  induction t with
  | nil =>
    intro w hw c hc
    simp [splitSpace] at hw
    subst hw
    cases hc
  | cons x rest ih =>
    intro w hw c hc
    by_cases hx : x = 32
    · rw [splitSpace, if_pos hx] at hw
      cases hw with
      | head => cases hc
      | tail _ h => exact List.mem_cons_of_mem x (ih w h c hc)
    · rw [splitSpace, if_neg hx] at hw
      rcases hsp : splitSpace rest with _ | ⟨w0, ws⟩
      · exact absurd hsp (splitSpace_ne_nil rest)
      · rw [hsp] at hw
        cases hw with
        | head =>
          cases hc with
          | head => exact List.mem_cons_self x rest
          | tail _ h =>
            refine List.mem_cons_of_mem x (ih w0 ?_ c h)
            rw [hsp]; exact List.mem_cons_self w0 ws
        | tail _ h =>
          refine List.mem_cons_of_mem x (ih w ?_ c hc)
          rw [hsp]; exact List.mem_cons_of_mem w0 h

lemma splitSpace_no_space (w : List Int) (h : (32 : Int) ∉ w) : splitSpace w = [w] := by
  induction w with
  | nil => rfl
  | cons c rest ih =>
    have hc : c ≠ 32 := fun hc => h (hc ▸ List.mem_cons_self c rest)
    have hrest : (32 : Int) ∉ rest := fun hr => h (List.mem_cons_of_mem c hr)
    rw [splitSpace, if_neg hc, ih hrest]

lemma splitSpace_append_space (w rest : List Int) (h : (32 : Int) ∉ w) :
    splitSpace (w ++ 32 :: rest) = w :: splitSpace rest := by
  induction w with
  | nil => simp [splitSpace]
  | cons c w' ih =>
    have hc : c ≠ 32 := fun hc => h (hc ▸ List.mem_cons_self c w')
    have hw' : (32 : Int) ∉ w' := fun hr => h (List.mem_cons_of_mem c hr)
    show splitSpace (c :: (w' ++ 32 :: rest)) = (c :: w') :: splitSpace rest
    rw [splitSpace, if_neg hc, ih hw']

/-- Python `' '.join(ws)`: the space-separated concatenation of the words. -/
def spaceJoin : List (List Int) → List Int
  | [] => []
  | [w] => w
  | w :: ws => w ++ 32 :: spaceJoin ws

lemma splitSpace_spaceJoin : ∀ (ws : List (List Int)), ws ≠ [] →
    (∀ w ∈ ws, (32 : Int) ∉ w) → splitSpace (spaceJoin ws) = ws := by
  intro ws
  induction ws with
  | nil => intro h; exact absurd rfl h
  | cons w ws' ih =>
    intro _ hall
    cases ws' with
    | nil => exact splitSpace_no_space w (hall w (List.mem_cons_self w []))
    | cons w2 ws'' =>
      show splitSpace (w ++ 32 :: spaceJoin (w2 :: ws'')) = w :: w2 :: ws''
      rw [splitSpace_append_space _ _ (hall w (List.mem_cons_self w _))]
      rw [ih (by simp) (fun x hx => hall x (List.mem_cons_of_mem w hx))]

lemma spaceJoin_mem : ∀ (ws : List (List Int)) (c : Int), c ∈ spaceJoin ws →
    c = 32 ∨ ∃ w ∈ ws, c ∈ w := by
  intro ws
  induction ws with
  | nil => intro c hc; cases hc
  | cons w ws' ih =>
    intro c hc
    cases ws' with
    | nil => exact Or.inr ⟨w, List.mem_cons_self w [], hc⟩
    | cons w2 ws'' =>
      rw [show spaceJoin (w :: w2 :: ws'') = w ++ 32 :: spaceJoin (w2 :: ws'') from rfl,
        List.mem_append] at hc
      rcases hc with hc | hc
      · exact Or.inr ⟨w, List.mem_cons_self w _, hc⟩
      · rcases List.mem_cons.mp hc with rfl | hc
        · exact Or.inl rfl
        · rcases ih c hc with h | ⟨v, hv, hcv⟩
          · exact Or.inl h
          · exact Or.inr ⟨v, List.mem_cons_of_mem w hv, hcv⟩

/-! ### Lexicon substring characterization -/

lemma lexiconContents_cons (v : List Int) (vs : List (List Int)) :
    lexiconContents (v :: vs) = v ++ 10 :: lexiconContents vs := by
  show (v ++ [10]) ++ lexiconContents vs = v ++ 10 :: lexiconContents vs
  rw [List.append_assoc]
  rfl

lemma prefix_newline_eq : ∀ (w v rest : List Int), (10 : Int) ∉ w → (10 : Int) ∉ v →
    (w ++ [10]) <+: (v ++ 10 :: rest) → w = v := by
  intro w
  induction w with
  | nil =>
    intro v rest _ hv h
    cases v with
    | nil => rfl
    | cons b v' =>
      exfalso
      have := (List.cons_prefix_cons.mp h).1
      exact hv (this ▸ List.mem_cons_self b v')
  | cons a w' ih =>
    intro v rest hw hv h
    cases v with
    | nil =>
      exfalso
      have := (List.cons_prefix_cons.mp h).1
      exact hw (this ▸ List.mem_cons_self a w')
    | cons b v' =>
      obtain ⟨hab, h'⟩ := List.cons_prefix_cons.mp h
      have hw' : (10 : Int) ∉ w' := fun hx => hw (List.mem_cons_of_mem a hx)
      have hv' : (10 : Int) ∉ v' := fun hx => hv (List.mem_cons_of_mem b hx)
      rw [hab, ih v' rest hw' hv' h']

lemma infix_newline_split (w : List Int) : ∀ (v rest : List Int),
    (10 : Int) ∉ w → (10 : Int) ∉ v →
    (w ++ [10]) <:+: (v ++ 10 :: rest) → w <:+ v ∨ (w ++ [10]) <:+: rest := by
  intro v
  induction v with
  | nil =>
    intro rest hw _ h
    rcases List.infix_cons_iff.mp h with hpre | hinf
    · cases w with
      | nil => exact Or.inl List.nil_suffix
      | cons a w' =>
        exfalso
        have := (List.cons_prefix_cons.mp hpre).1
        exact hw (this ▸ List.mem_cons_self a w')
    · exact Or.inr hinf
  | cons b v' ih =>
    intro rest hw hv h
    rw [List.cons_append] at h
    rcases List.infix_cons_iff.mp h with hpre | hinf
    · cases w with
      | nil => exact Or.inl List.nil_suffix
      | cons a w' =>
        obtain ⟨hab, h'⟩ := List.cons_prefix_cons.mp hpre
        have hw' : (10 : Int) ∉ w' := fun hx => hw (List.mem_cons_of_mem a hx)
        have hv' : (10 : Int) ∉ v' := fun hx => hv (List.mem_cons_of_mem b hx)
        have := prefix_newline_eq w' v' rest hw' hv' h'
        subst this
        rw [hab]
        exact Or.inl (List.suffix_refl _)
    · have hv' : (10 : Int) ∉ v' := fun hx => hv (List.mem_cons_of_mem b hx)
      rcases ih rest hw hv' hinf with hsuf | hinf'
      · exact Or.inl (hsuf.trans (List.suffix_cons b v'))
      · exact Or.inr hinf'

lemma check_token_iff (words : List (List Int)) (w : List Int)
    (hwords : ∀ v ∈ words, (10 : Int) ∉ v) (hw : (10 : Int) ∉ w) :
    containsSub (w ++ [10]) (lexiconContents words) = true ↔ ∃ v ∈ words, w <:+ v := by
  rw [containsSub_iff]
  induction words with
  | nil =>
    show (w ++ [10]) <:+: [] ↔ _
    simp
  | cons v vs ih =>
    rw [lexiconContents_cons]
    constructor
    · intro h
      rcases infix_newline_split w v (lexiconContents vs) hw
          (hwords v (List.mem_cons_self v vs)) h with hsuf | hinf
      · exact ⟨v, List.mem_cons_self v vs, hsuf⟩
      · obtain ⟨v', hv', hsuf⟩ :=
          (ih (fun x hx => hwords x (List.mem_cons_of_mem v hx))).mp hinf
        exact ⟨v', List.mem_cons_of_mem v hv', hsuf⟩
    · rintro ⟨v', hv', hsuf⟩
      rcases List.mem_cons.mp hv' with rfl | hv'
      · obtain ⟨s, hs⟩ := hsuf
        exact ⟨s, lexiconContents vs, by rw [← hs]; simp⟩
      · obtain ⟨s, t, hst⟩ :=
          (ih (fun x hx => hwords x (List.mem_cons_of_mem v hx))).mpr ⟨v', hv', hsuf⟩
        exact ⟨v ++ 10 :: s, t, by rw [← hst]; simp⟩

lemma check_correctness_true_iff (words : List (List Int)) (text : List Int)
    (hwords : ∀ v ∈ words, (10 : Int) ∉ v) (htext : ∀ c ∈ text, c ≠ 10) :
    Hacker.check_correctness (lexiconContents words) text = true ↔
      ∀ w ∈ splitSpace text, ∃ v ∈ words, w <:+ v := by
  rw [Hacker.check_correctness, List.all_eq_true]
  constructor
  · intro h w hw
    have hw10 : (10 : Int) ∉ w := fun hx => htext 10 (splitSpace_mem_mem text w hw 10 hx) rfl
    exact (check_token_iff words w hwords hw10).mp (h w hw)
  · intro h w hw
    have hw10 : (10 : Int) ∉ w := fun hx => htext 10 (splitSpace_mem_mem text w hw 10 hx) rfl
    exact (check_token_iff words w hwords hw10).mpr (h w hw)

lemma check_correctness_of_mem (words : List (List Int)) (text : List Int)
    (h : ∀ w ∈ splitSpace text, w ∈ words) :
    Hacker.check_correctness (lexiconContents words) text = true := by
  rw [Hacker.check_correctness, List.all_eq_true]
  intro w hw
  rw [containsSub_iff]
  have : w ++ [10] ∈ words.map (fun v => v ++ [10]) :=
    List.mem_map.mpr ⟨w, h w hw, rfl⟩
  exact List.infix_of_mem_flatten this

/-! ### Caesar key-search lemmas -/

lemma hackCaesarKeys_none (L text : List Int) : ∀ ks : List Nat,
    (∀ k ∈ ks, Hacker.check_correctness L (Caesar.decode (k : Int) text) = false) →
    Hacker.hackCaesarKeys L text ks = none := by
  intro ks
  induction ks with
  | nil => intro _; rfl
  | cons k ks' ih =>
    intro h
    show (if Hacker.check_correctness L (Caesar.decode (k : Int) text)
        then some (Caesar.decode (k : Int) text)
        else Hacker.hackCaesarKeys L text ks') = none
    rw [h k (List.mem_cons_self k ks')]
    simp only [Bool.false_eq_true, if_false]
    exact ih (fun x hx => h x (List.mem_cons_of_mem k hx))

lemma hackCaesarKeys_append_none (L text : List Int) (as_ bs : List Nat)
    (h : Hacker.hackCaesarKeys L text as_ = none) :
    Hacker.hackCaesarKeys L text (as_ ++ bs) = Hacker.hackCaesarKeys L text bs := by
  induction as_ with
  | nil => rfl
  | cons k ks ih =>
    by_cases hk : Hacker.check_correctness L (Caesar.decode (k : Int) text) = true
    · exfalso
      rw [show Hacker.hackCaesarKeys L text (k :: ks)
          = some (Caesar.decode (k : Int) text) from by
        show (if Hacker.check_correctness L (Caesar.decode (k : Int) text)
            then _ else _) = _
        rw [hk]; simp] at h
      cases h
    · have hk' : Hacker.check_correctness L (Caesar.decode (k : Int) text) = false :=
        Bool.eq_false_iff.mpr hk
      have h' : Hacker.hackCaesarKeys L text ks = none := by
        rw [show Hacker.hackCaesarKeys L text (k :: ks)
            = Hacker.hackCaesarKeys L text ks from by
          show (if Hacker.check_correctness L (Caesar.decode (k : Int) text)
              then _ else _) = _
          rw [hk']; simp] at h
        exact h
      show (if Hacker.check_correctness L (Caesar.decode (k : Int) text)
          then _ else _) = _
      rw [hk']
      simp only [Bool.false_eq_true, if_false]
      exact ih h'

lemma hackCaesarKeys_cons_accept (L text : List Int) (k : Nat) (ks : List Nat)
    (h : Hacker.check_correctness L (Caesar.decode (k : Int) text) = true) :
    Hacker.hackCaesarKeys L text (k :: ks) = some (Caesar.decode (k : Int) text) := by
  show (if Hacker.check_correctness L (Caesar.decode (k : Int) text)
      then _ else _) = _
  rw [h]
  simp

lemma hackCaesarKeys_some_spec (L text : List Int) : ∀ (ks : List Nat) (d : List Int),
    Hacker.hackCaesarKeys L text ks = some d →
    Hacker.check_correctness L d = true ∧ ∃ k ∈ ks, d = Caesar.decode (k : Int) text := by
  intro ks
  induction ks with
  | nil => intro d h; cases h
  | cons k ks' ih =>
    intro d h
    by_cases hk : Hacker.check_correctness L (Caesar.decode (k : Int) text) = true
    · rw [hackCaesarKeys_cons_accept L text k ks' hk] at h
      cases h
      exact ⟨hk, k, List.mem_cons_self k ks', rfl⟩
    · have hk' : Hacker.check_correctness L (Caesar.decode (k : Int) text) = false :=
        Bool.eq_false_iff.mpr hk
      rw [show Hacker.hackCaesarKeys L text (k :: ks')
          = Hacker.hackCaesarKeys L text ks' from by
        show (if Hacker.check_correctness L (Caesar.decode (k : Int) text)
            then _ else _) = _
        rw [hk']; simp] at h
      obtain ⟨hc, k', hk'', hd⟩ := ih d h
      exact ⟨hc, k', List.mem_cons_of_mem k hk'', hd⟩

lemma hackCaesarKeys_isSome (L text : List Int) : ∀ (ks : List Nat) (k : Nat),
    k ∈ ks → Hacker.check_correctness L (Caesar.decode (k : Int) text) = true →
    ∃ d, Hacker.hackCaesarKeys L text ks = some d := by
  intro ks
  induction ks with
  | nil => intro k hk; cases hk
  | cons k0 ks' ih =>
    intro k hk hacc
    by_cases hk0 : Hacker.check_correctness L (Caesar.decode (k0 : Int) text) = true
    · exact ⟨_, hackCaesarKeys_cons_accept L text k0 ks' hk0⟩
    · have hk0' : Hacker.check_correctness L (Caesar.decode (k0 : Int) text) = false :=
        Bool.eq_false_iff.mpr hk0
      have hred : Hacker.hackCaesarKeys L text (k0 :: ks')
          = Hacker.hackCaesarKeys L text ks' := by
        show (if Hacker.check_correctness L (Caesar.decode (k0 : Int) text)
            then _ else _) = _
        rw [hk0']
        simp
      rcases List.mem_cons.mp hk with rfl | hk'
      · rw [hacc] at hk0'; cases hk0'
      · obtain ⟨d, hd⟩ := ih k hk' hacc
        exact ⟨d, by rw [hred]; exact hd⟩

lemma hackCaesar_first (L text : List Int) (k₀ : Nat) (hk₀ : k₀ < 95)
    (hacc : Hacker.check_correctness L (Caesar.decode (k₀ : Int) text) = true)
    (hbefore : ∀ j : Nat, j < k₀ →
      Hacker.check_correctness L (Caesar.decode (j : Int) text) = false) :
    Hacker.hackCaesar L text = some (Caesar.decode (k₀ : Int) text) := by
  rw [Hacker.hackCaesar]
  have hsplit : (95 : Nat) = k₀ + (95 - k₀) := by omega
  rw [hsplit, List.range_add]
  rw [hackCaesarKeys_append_none L text _ _
    (hackCaesarKeys_none L text _ (fun k hk => hbefore k (List.mem_range.mp hk)))]
  have h95 : 95 - k₀ = (94 - k₀) + 1 := by omega
  rw [h95, List.range_succ_eq_map, List.map_cons]
  have : k₀ + 0 = k₀ := by omega
  rw [this]
  exact hackCaesarKeys_cons_accept L text k₀ _ hacc

/-! ### Claim theorems: the Hacker -/

/-- C2 counterexample: with the word list `["cat"]`, the token `"at"` is
absent from the list, yet `check_correctness("at")` returns true, because
the membership test is Python substring containment (`'at\x0a' in
'cat\x0a'`), not a whole-line match.  So "returns false whenever some token
is absent from the list" is violated. -/
theorem check_correctness_accepts_absent_token :
    Hacker.check_correctness (lexiconContents [[99, 97, 116]]) [97, 116] = true ∧
    ([97, 116] : List Int) ∉ [[99, 97, 116]] :=
  ⟨by decide, by decide⟩

/-- C2 amended: `check_correctness` splits the text on single spaces and
tests `token + '\x0a'` for substring containment in the raw file contents;
for newline-free text and words this accepts a token if and only if it is a
suffix of some word in the backing list (equality not required). -/
theorem check_correctness_suffix_characterization (words : List (List Int))
    (text : List Int) (hwords : ∀ v ∈ words, (10 : Int) ∉ v)
    (htext : ∀ c ∈ text, c ≠ 10) :
    Hacker.check_correctness (lexiconContents words) text = true ↔
      ∀ w ∈ splitSpace text, ∃ v ∈ words, w <:+ v :=
  check_correctness_true_iff words text hwords htext

/-- C2 witness: `"t"` is accepted with word list `["cat"]` because it is a
suffix of `"cat"`. -/
theorem check_correctness_suffix_characterization_witness :
    Hacker.check_correctness (lexiconContents [[99, 97, 116]]) [116] = true :=
  (check_correctness_suffix_characterization [[99, 97, 116]] [116]
    (by decide) (by decide)).mpr (by decide)

/-- C3: for the Caesar variant the Hacker enumerates all 95 decoding keys in
increasing order 0, 1, ..., 94, decodes the ciphertext with each, and
returns the decoded text of the first key accepted by the oracle
(`check_correctness`); if no key in [0, 94] is accepted, it returns `None`
after exhausting all 95 keys. -/
theorem hackCaesar_enumeration (words : List (List Int)) (text : List Int) :
    ((∀ k : Nat, k < 95 →
        Hacker.check_correctness (lexiconContents words)
          (Caesar.decode (k : Int) text) = false) →
      Hacker.operate_chipher words .caesar text = none) ∧
    (∀ k₀ : Nat, k₀ < 95 →
      Hacker.check_correctness (lexiconContents words)
        (Caesar.decode (k₀ : Int) text) = true →
      (∀ j : Nat, j < k₀ →
        Hacker.check_correctness (lexiconContents words)
          (Caesar.decode (j : Int) text) = false) →
      Hacker.operate_chipher words .caesar text
        = some (Caesar.decode (k₀ : Int) text)) := by
  constructor
  · intro h
    show Hacker.hackCaesar (lexiconContents words) text = none
    exact hackCaesarKeys_none _ _ _ (fun k hk => h k (List.mem_range.mp hk))
  · intro k₀ hk₀ hacc hbefore
    show Hacker.hackCaesar (lexiconContents words) text = _
    exact hackCaesar_first _ _ k₀ hk₀ hacc hbefore

/-- C3 witness: an empty lexicon rejects every decode (`None` after all 95
keys); with lexicon `["a"]` and ciphertext `"b"`, key 29 is the first whose
decode (`" "`) is accepted. -/
theorem hackCaesar_enumeration_witness :
    Hacker.operate_chipher [] .caesar [] = none ∧
    Hacker.operate_chipher [[97]] .caesar [98] = some [32] :=
  ⟨(hackCaesar_enumeration [] []).1 (by decide),
   ((hackCaesar_enumeration [[97]] [98]).2 29 (by decide) (by decide)
     (by decide)).trans (by decide)⟩

/-- C4 counterexample: with lexicon `["a"]`, plaintext `"a"` (a single
lexicon word) and Caesar key 1, the Hacker does not return the original
plaintext: key 29 decodes the ciphertext `"b"` to `" "`, whose two empty
split-tokens are accepted by the substring oracle (`'\x0a' in 'a\x0a'`), so
the search stops early and returns `" "`. -/
theorem hackCaesar_returns_wrong_plaintext :
    Hacker.operate_chipher [[97]] .caesar (Caesar.encode 1 (spaceJoin [[97]])) = some [32] ∧
    spaceJoin [[97]] = [97] ∧ ([32] : List Int) ≠ [97] :=
  ⟨by decide, by decide, by decide⟩

/-- C4 amended: for every Caesar key `k` and space-separated all-lexicon
plaintext, the Hacker always succeeds within the 95 enumerated keys,
returning some oracle-accepted decode; it returns the original plaintext
when (and only because) no key before the true decoding key
`(95 - k) mod 95` is accepted by the oracle. -/
theorem hackCaesar_lexicon_plaintext (words ws : List (List Int)) (k : Int)
    (hne : ws ≠ []) (hmem : ∀ w ∈ ws, w ∈ words)
    (halpha : ∀ w ∈ ws, ∀ c ∈ w, 32 < c ∧ c ≤ 126) :
    (∃ d, Hacker.operate_chipher words .caesar
        (Caesar.encode k (spaceJoin ws)) = some d ∧
      Hacker.check_correctness (lexiconContents words) d = true) ∧
    ((∀ j : Nat, j < (Caesar.gen_decoding_key k).toNat →
        Hacker.check_correctness (lexiconContents words)
          (Caesar.decode (j : Int) (Caesar.encode k (spaceJoin ws))) = false) →
      Hacker.operate_chipher words .caesar (Caesar.encode k (spaceJoin ws))
        = some (spaceJoin ws)) := by
  have hgen : 0 ≤ Caesar.gen_decoding_key k ∧ Caesar.gen_decoding_key k < 95 := by
    unfold Caesar.gen_decoding_key
    exact ⟨Int.emod_nonneg _ (by norm_num), Int.emod_lt_of_pos _ (by norm_num)⟩
  have hj95 : (Caesar.gen_decoding_key k).toNat < 95 := by omega
  have hcast : (((Caesar.gen_decoding_key k).toNat : Nat) : Int)
      = Caesar.gen_decoding_key k := by omega
  have hpt_alpha : inAlphabet (spaceJoin ws) := by
    intro c hc
    rcases spaceJoin_mem ws c hc with rfl | ⟨w, hw, hcw⟩
    · omega
    · have := halpha w hw c hcw
      omega
  have hdec : Caesar.decode ((Caesar.gen_decoding_key k).toNat : Int)
      (Caesar.encode k (spaceJoin ws)) = spaceJoin ws := by
    rw [hcast]
    exact caesar_roundtrip k (spaceJoin ws) hpt_alpha
  have hchk : Hacker.check_correctness (lexiconContents words) (spaceJoin ws) = true := by
    apply check_correctness_of_mem
    rw [splitSpace_spaceJoin ws hne
      (fun w hw hc => by have := halpha w hw 32 hc; omega)]
    exact hmem
  have hacc : Hacker.check_correctness (lexiconContents words)
      (Caesar.decode ((Caesar.gen_decoding_key k).toNat : Int)
        (Caesar.encode k (spaceJoin ws))) = true := by
    rw [hdec]
    exact hchk
  constructor
  · obtain ⟨d, hd⟩ := hackCaesarKeys_isSome (lexiconContents words)
      (Caesar.encode k (spaceJoin ws)) (List.range 95)
      (Caesar.gen_decoding_key k).toNat (List.mem_range.mpr hj95) hacc
    obtain ⟨hchk', _⟩ := hackCaesarKeys_some_spec _ _ _ d hd
    exact ⟨d, hd, hchk'⟩
  · intro hbefore
    show Hacker.hackCaesar (lexiconContents words) (Caesar.encode k (spaceJoin ws)) = _
    rw [hackCaesar_first _ _ (Caesar.gen_decoding_key k).toNat hj95 hacc hbefore]
    rw [hdec]

/-- C4 witness: lexicon `["a"]`, plaintext `"a"`, Caesar key 94 — the true
decoding key 1 is reached with key 0 rejected, so the original plaintext is
recovered within the 95 trials. -/
theorem hackCaesar_lexicon_plaintext_witness :
    (∃ d, Hacker.operate_chipher [[97]] .caesar
        (Caesar.encode 94 (spaceJoin [[97]])) = some d ∧
      Hacker.check_correctness (lexiconContents [[97]]) d = true) ∧
    Hacker.operate_chipher [[97]] .caesar (Caesar.encode 94 (spaceJoin [[97]]))
      = some (spaceJoin [[97]]) := by
  have h := hackCaesar_lexicon_plaintext [[97]] [[97]] 94 (by decide)
    (by decide) (by decide)
  exact ⟨h.1, h.2 (by decide)⟩

/-- C5 counterexample: invoked on RSA, the Hacker's result at a concrete
input is `None` — exactly the same value as the "not found" outcome of an
exhausted Caesar search — not a distinct "unsupported cipher" error. -/
theorem hacker_rsa_same_as_not_found :
    Hacker.operate_chipher [] .rsa [113] = none ∧
    Hacker.operate_chipher [] .caesar [113] = none :=
  ⟨rfl, by decide⟩

/-- C5 amended: when the Hacker is invoked on the RSA variant, the
`if/elif` chain has no matching branch, so it performs no key search and
falls through to the trailing `return None` — the very same "not found"
value as an exhausted search, with no distinct "unsupported cipher"
error. -/
theorem hacker_rsa_not_found (words : List (List Int)) (text : List Int) :
    Hacker.operate_chipher words .rsa text = none := rfl

/-! ### Block conversion lemmas -/

lemma blockToCharsFuel_zero (f : Nat) : blockToCharsFuel f 0 = [] := by
  cases f <;> rfl

lemma blockToCharsFuel_congr : ∀ (f₁ f₂ b : Nat), b ≤ f₁ → b ≤ f₂ →
    blockToCharsFuel f₁ b = blockToCharsFuel f₂ b := by
  intro f₁
  induction f₁ with
  | zero =>
    intro f₂ b h1 _
    have : b = 0 := by omega
    subst this
    rw [blockToCharsFuel_zero, blockToCharsFuel_zero]
  | succ f ih =>
    intro f₂ b h1 h2
    cases b with
    | zero => rw [blockToCharsFuel_zero, blockToCharsFuel_zero]
    | succ b' =>
      cases f₂ with
      | zero => omega
      | succ f₂' =>
        show blockToCharsFuel f ((b' + 1) / 256) ++ [(b' + 1) % 256]
            = blockToCharsFuel f₂' ((b' + 1) / 256) ++ [(b' + 1) % 256]
        rw [ih f₂' ((b' + 1) / 256) (by omega) (by omega)]

lemma blockToChars_unfold (v : Nat) (hv : 0 < v) :
    blockToChars v = blockToCharsFuel (v / 256) (v / 256) ++ [v % 256] := by
  cases v with
  | zero => omega
  | succ b =>
    show blockToCharsFuel b ((b + 1) / 256) ++ [(b + 1) % 256] = _
    rw [blockToCharsFuel_congr b ((b + 1) / 256) ((b + 1) / 256) (by omega) (by omega)]

lemma charsToBlock_append_one (cs : List Nat) (c : Nat) :
    charsToBlock (cs ++ [c]) = charsToBlock cs * 256 + c := by
  show List.foldl _ 0 (cs ++ [c]) = _
  rw [List.foldl_append]
  rfl

lemma blockToChars_roundtrip (cs : List Nat) (h : ∀ c ∈ cs, 0 < c ∧ c < 256) :
    blockToChars (charsToBlock cs) = cs := by
  induction cs using List.reverseRecOn with
  | nil => rfl
  | append_singleton cs' c ih =>
    have hc := h c (by simp)
    have hcs' : ∀ x ∈ cs', 0 < x ∧ x < 256 := fun x hx => h x (by simp [hx])
    rw [charsToBlock_append_one]
    have hpos : 0 < charsToBlock cs' * 256 + c := by omega
    rw [blockToChars_unfold _ hpos]
    have hdiv : (charsToBlock cs' * 256 + c) / 256 = charsToBlock cs' := by omega
    have hmod : (charsToBlock cs' * 256 + c) % 256 = c := by omega
    rw [hdiv, hmod]
    show blockToChars (charsToBlock cs') ++ [c] = cs' ++ [c]
    rw [ih hcs']

lemma blockToChars_singleton (c : Nat) (h1 : 0 < c) (h2 : c < 256) :
    blockToChars c = [c] := by
  rw [blockToChars_unfold c h1]
  have hdiv : c / 256 = 0 := by omega
  have hmod : c % 256 = c := by omega
  rw [hdiv, hmod, blockToCharsFuel_zero]
  rfl

lemma chunk_roundtrip : ∀ (f : Nat) (l : List Nat) (k : Nat), 1 ≤ k → l.length ≤ f →
    (∀ c ∈ l, 0 < c ∧ c < 256) →
    ((chunkFuel f k l).map (fun cs => blockToChars (charsToBlock cs))).flatten = l := by
  intro f
  induction f with
  | zero =>
    intro l k _ hlen _
    have : l = [] := by
      cases l with
      | nil => rfl
      | cons x xs => simp at hlen
    subst this
    rfl
  | succ f ih =>
    intro l k hk hlen hr
    cases l with
    | nil => rfl
    | cons x xs =>
      show (blockToChars (charsToBlock ((x :: xs).take k))
          :: (chunkFuel f k ((x :: xs).drop k)).map
            (fun cs => blockToChars (charsToBlock cs))).flatten = x :: xs
      rw [List.flatten_cons]
      rw [blockToChars_roundtrip _ (fun c hc => hr c (List.take_subset k (x :: xs) hc))]
      rw [ih ((x :: xs).drop k) k hk (by simp at hlen ⊢; omega)
        (fun c hc => hr c (List.drop_subset k (x :: xs) hc))]
      exact List.take_append_drop k (x :: xs)

lemma chunkFuel_one : ∀ (f : Nat) (t : List Nat), t.length ≤ f →
    chunkFuel f 1 t = t.map (fun c => [c]) := by
  intro f
  induction f with
  | zero =>
    intro t hlen
    cases t with
    | nil => rfl
    | cons x xs => simp at hlen
  | succ f ih =>
    intro t hlen
    cases t with
    | nil => rfl
    | cons x xs =>
      show (x :: xs).take 1 :: chunkFuel f 1 ((x :: xs).drop 1) = [x] :: xs.map (fun c => [c])
      rw [show (x :: xs).take 1 = [x] from rfl, show (x :: xs).drop 1 = xs from rfl]
      rw [ih xs (by simp at hlen ⊢; omega)]

lemma charsToBlock_singleton (c : Nat) : charsToBlock [c] = c := by
  show 0 * 256 + c = c
  omega

lemma blocks_from_text_one (t : List Nat) : blocks_from_text t 1 = t := by
  rw [blocks_from_text, chunkFuel_one t.length t (le_refl _), List.map_map]
  have : (charsToBlock ∘ fun c => [c]) = fun c : Nat => c := by
    funext c
    exact charsToBlock_singleton c
  rw [this, List.map_id']

lemma flatten_singletons : ∀ t : List Nat, (t.map (fun c => [c])).flatten = t := by
  intro t
  induction t with
  | nil => rfl
  | cons x xs ih => simp [ih]

/-! ### RSA number theory -/

lemma zmod_pow_eq_self (p : Nat) (hp : p.Prime) (s : Nat) (x : ZMod p) :
    x ^ (s * (p - 1) + 1) = x := by
  haveI : Fact p.Prime := ⟨hp⟩
  by_cases hx : x = 0
  · subst hx
    rw [pow_succ, mul_zero]
  · rw [pow_succ]
    have h1 : x ^ (s * (p - 1)) = 1 := by
      rw [mul_comm, pow_mul, ZMod.pow_card_sub_one_eq_one hx, one_pow]
    rw [h1, one_mul]

lemma pow_modeq_prime (p t c other : Nat) (hp : p.Prime) :
    c ^ ((p - 1) * other * t + 1) ≡ c [MOD p] := by
  apply (ZMod.natCast_eq_natCast_iff _ _ _).mp
  push_cast
  have hshape : (p - 1) * other * t + 1 = other * t * (p - 1) + 1 := by ring
  rw [hshape]
  exact zmod_pow_eq_self p hp (other * t) _

lemma rsa_exponent_modeq (p q e d c : Nat) (hp : p.Prime) (hq : q.Prime) (hpq : p ≠ q)
    (hed : e * d % ((p - 1) * (q - 1)) = 1) :
    c ^ (e * d) ≡ c [MOD p * q] := by
  have hed_eq : e * d = (p - 1) * (q - 1) * (e * d / ((p - 1) * (q - 1))) + 1 := by
    have := Nat.div_add_mod (e * d) ((p - 1) * (q - 1))
    omega
  have hmp : c ^ (e * d) ≡ c [MOD p] := by
    rw [hed_eq]
    exact pow_modeq_prime p (e * d / ((p - 1) * (q - 1))) c (q - 1) hp
  have hmq : c ^ (e * d) ≡ c [MOD q] := by
    rw [hed_eq]
    have hshape : (p - 1) * (q - 1) * (e * d / ((p - 1) * (q - 1))) + 1
        = (q - 1) * (p - 1) * (e * d / ((p - 1) * (q - 1))) + 1 := by ring
    rw [hshape]
    exact pow_modeq_prime q (e * d / ((p - 1) * (q - 1))) c (p - 1) hq
  exact (Nat.modEq_and_modEq_iff_modEq_mul
    ((Nat.coprime_primes hp hq).mpr hpq)).mp ⟨hmp, hmq⟩

lemma rsa_block_roundtrip (p q e d c : Nat) (hp : p.Prime) (hq : q.Prime) (hpq : p ≠ q)
    (hed : e * d % ((p - 1) * (q - 1)) = 1) (hc : c < p * q) :
    (c ^ e % (p * q)) ^ d % (p * q) = c := by
  have h1 : (c ^ e % (p * q)) ^ d % (p * q) = c ^ (e * d) % (p * q) := by
    rw [← Nat.pow_mod, ← pow_mul]
  rw [h1]
  have h2 : c ^ (e * d) % (p * q) = c % (p * q) :=
    rsa_exponent_modeq p q e d c hp hq hpq hed
  rw [h2]
  exact Nat.mod_eq_of_lt hc

lemma prime_seven : Nat.Prime 7 := by decide

/-- C8: the RSA block conversion is an exact inverse at the same block size —
`blocks_to_text(text_to_blocks(t, k), k) == t` for every alphabet text `t`
and every block size `k ≥ 1` — and consequently, for every key pair
`((n, e), (n, d))` produced by `RSA.gen_key_pair` (`n = p*q` for distinct
primes `p, q` and `e*d ≡ 1 (mod (p-1)(q-1))`, the property guaranteed by
`strict_modular_inverse`) and every alphabet text whose integer blocks are
strictly less than `n`, `RSA.decode((n, d), RSA.encode((n, e), text)) ==
text`. -/
theorem rsa_block_conversion_roundtrip :
    (∀ (t : List Nat) (k : Nat), 1 ≤ k → (∀ c ∈ t, 32 ≤ c ∧ c ≤ 126) →
      text_from_blocks (blocks_from_text t k) k = t) ∧
    (∀ (p q e d : Nat) (t : List Nat), p.Prime → q.Prime → p ≠ q →
      e * d % ((p - 1) * (q - 1)) = 1 →
      (∀ c ∈ t, 32 ≤ c ∧ c ≤ 126) → (∀ c ∈ t, c < p * q) →
      RSA.decode (p * q, d) (RSA.encode (p * q, e) t) = t) := by
  constructor
  · intro t k hk halpha
    show (((chunkFuel t.length k t).map charsToBlock).map blockToChars).flatten = t
    rw [List.map_map]
    exact chunk_roundtrip t.length t k hk (le_refl _)
      (fun c hc => by have := halpha c hc; omega)
  · intro p q e d t hp hq hpq hed halpha hlt
    have hmain : ∀ c ∈ t, (c ^ e % (p * q)) ^ d % (p * q) = c :=
      fun c hc => rsa_block_roundtrip p q e d c hp hq hpq hed (hlt c hc)
    show ((((blocks_from_text t 1).map (fun b => b ^ e % (p * q))).map
        (fun c => c ^ d % (p * q))).map blockToChars).flatten = t
    rw [blocks_from_text_one, List.map_map, List.map_map]
    have h2 : t.map ((blockToChars ∘ fun c => c ^ d % (p * q)) ∘ fun b => b ^ e % (p * q))
        = t.map (fun c => [c]) :=
      List.map_congr_left (fun c hc => by
        show blockToChars ((c ^ e % (p * q)) ^ d % (p * q)) = [c]
        rw [hmain c hc]
        exact blockToChars_singleton c (by have := halpha c hc; omega)
          (by have := halpha c hc; omega))
    rw [h2]
    exact flatten_singletons t

/-- C8 witness: a two-character text at block size 2, and an RSA round trip
with `p = 5`, `q = 7`, `e = d = 5` on the one-character text `"!"`. -/
theorem rsa_block_conversion_roundtrip_witness :
    text_from_blocks (blocks_from_text [65, 66] 2) 2 = [65, 66] ∧
    RSA.decode (35, 5) (RSA.encode (35, 5) [33]) = [33] :=
  ⟨rsa_block_conversion_roundtrip.1 [65, 66] 2 (by decide) (by decide),
   rsa_block_conversion_roundtrip.2 5 7 5 5 [33] Nat.prime_five prime_seven
     (by decide) (by decide) (by decide) (by decide)⟩
